import Mathlib

/-!
Verification of the type-checker core: the structural-assignability checker
(`try_assign` in src/typescript/checker/src/ty/assign.rs), the narrowing
utilities (`remove_falsy`, `negate` in src/typescript/checker/src/analyzer/expr.rs)
and the signature resolver (`extract` in the same file), embedded shallowly.

Conventions of the embedding:
* machine spans are dropped (the spec declares equality span-insensitive by
  construction), so `eq_ignore_span` on literal values is plain equality;
* `Type::normalize()` and `Type::is_keyword` (defined in the crate's `ty`
  module, which is not part of the visible sources) are modelled from the
  spec's data model: `normalize` is the identity on the algebraic `Ty`
  values and `is_keyword k` tests the head constructor;
* the Rust `unimplemented!()` / `unreachable!()` aborts are modelled by an
  explicit `crash` outcome so that abort behaviour is provable;
* f64 number-literal values are modelled as integers: the only operation the
  embedded code performs on them is the comparison against `0.0`;
* payloads that the embedded functions never inspect (function parameter
  patterns, class bodies, enum member lists, signature payloads of type-literal
  members) are elided to counts or name strings.
-/

/-- Keyword kinds of `TsKeywordType` used by the checker. -/
inductive KwKind where
  | any | unknown | strK | numK | boolK | voidK | nullK | undef | objectK | never
  deriving DecidableEq, Repr

/-- Literal values (`TsLit`): string, number (modelled as `Int`), boolean. -/
inductive TsLitV where
  | str (s : String)
  | num (n : Int)
  | bool (b : Bool)
  deriving DecidableEq, Repr

/-- Tag for `Type::Simple` payloads: the checker only distinguishes the
`TsTypePredicate` form; every other raw syntactic type is opaque. -/
inductive STag where
  | typePredicate
  | raw (s : String)
  deriving DecidableEq, Repr

mutual
/-- The checker's type algebra (`crate::ty::Type`), as used by
`try_assign` in src/typescript/checker/src/ty/assign.rs. -/
inductive Ty where
  | keyword (k : KwKind)
  | lit (l : TsLitV)
  | array (elem : Ty)
  | tuple (types : List Ty)
  | union (types : List Ty)
  | inter (types : List Ty)
  | typeLit (members : List TyElem)
  | iface (name : String) (body : List TyElem)
  | fn (typeParams : Option Nat) (params : Nat) (ret : Ty)
  | ctor (typeParams : Option Nat) (params : Nat) (ret : Ty)
  | cls (name : String)
  | enumT (id : String)
  | enumVariant (enumName : String) (name : String)
  | param (name : String) (constraint : Option Ty)
  | this
  | other (s : STag)

/-- Members of a `TypeLit` / `Interface` body (`crate::ty::TypeElement`).
Properties and methods carry a key; call/construct signatures are keyless
(`TypeElement::key()` returns `None` for them).  Signature payloads are
elided: `try_assign` never inspects them except through the name-erasing
structural equality. -/
inductive TyElem where
  | property (key : String) (typeAnn : Option Ty)
  | method (key : String)
  | callSig
  | constructSig
end

/-- Errors produced by the assignability checker (`crate::errors::Error`,
restricted to the kinds `try_assign` constructs; spans dropped). -/
inductive AErr where
  | assignFailed (left right : Ty) (cause : List AErr)
  | unionError (errors : List AErr)
  | intersectionError (error : AErr)
  | missingFields (fields : List TyElem)
  | cannotAssignToThis

/-- Outcome of `try_assign`: success, a returned error, or a process abort
(the Rust `unimplemented!()` / `unreachable!()` panics). -/
inductive AResult where
  | ok
  | err (e : AErr)
  | crash

mutual
/-- `eq_ignore_name_and_span` on `Type` (src/util/mod.rs): structural equality
after erasing spans (absent from the model) and identifier names.  Identifier
names are erased in interfaces, type parameters, class/enum heads and member
keys; `EnumVariant` fields are plain words, not identifier nodes, and are
compared.  Elided payloads (class bodies, enum member lists, signature
payloads) compare equal. -/
def eqNN : Ty → Ty → Bool
  | .keyword a, .keyword b => a == b
  | .lit a, .lit b => a == b
  | .array a, .array b => eqNN a b
  | .tuple a, .tuple b => eqNNList a b
  | .union a, .union b => eqNNList a b
  | .inter a, .inter b => eqNNList a b
  | .typeLit a, .typeLit b => eqNNElems a b
  | .iface _ a, .iface _ b => eqNNElems a b
  | .fn tp p r, .fn tq q s => tp == tq && p == q && eqNN r s
  | .ctor tp p r, .ctor tq q s => tp == tq && p == q && eqNN r s
  | .cls _, .cls _ => true
  | .enumT _, .enumT _ => true
  | .enumVariant a c, .enumVariant b d => a == b && c == d
  | .param _ c, .param _ d => eqNNOpt c d
  | .this, .this => true
  | .other a, .other b => a == b
  | _, _ => false

/-- Pointwise `eqNN` on lists of types. -/
def eqNNList : List Ty → List Ty → Bool
  | [], [] => true
  | a :: as_, b :: bs => eqNN a b && eqNNList as_ bs
  | _, _ => false

/-- `eqNN` on optional types. -/
def eqNNOpt : Option Ty → Option Ty → Bool
  | none, none => true
  | some a, some b => eqNN a b
  | _, _ => false

/-- `eq_ignore_name_and_span` on `TypeElement`: member keys are identifier
names and are erased before comparison. -/
def eqNNElem : TyElem → TyElem → Bool
  | .property _ a, .property _ b => eqNNOpt a b
  | .method _, .method _ => true
  | .callSig, .callSig => true
  | .constructSig, .constructSig => true
  | _, _ => false

/-- Pointwise `eqNNElem` on member lists. -/
def eqNNElems : List TyElem → List TyElem → Bool
  | [], [] => true
  | a :: as_, b :: bs => eqNNElem a b && eqNNElems as_ bs
  | _, _ => false
end

/-- `Type::is_keyword(kind)` (modelled from the spec's data model: tests the
head constructor). -/
def Ty.isKeyword : Ty → KwKind → Bool
  | .keyword k, k2 => k == k2
  | _, _ => false

/-- The first property member with the given key, returning its type
annotation: `handle_type_lit`'s inner scan skips members whose key matches
but which are not properties. -/
def findPropAnn (k : String) : List TyElem → Option (Option Ty)
  | [] => none
  | .property k2 ann :: rest => if k2 == k then some ann else findPropAnn k rest
  | _ :: rest => findPropAnn k rest

/-- Whether some method member carries the given key (`handle_type_lit`
aborts on a method/method pair). -/
def hasMethodKey (k : String) : List TyElem → Bool
  | [] => false
  | .method k2 :: rest => k2 == k || hasMethodKey k rest
  | _ :: rest => hasMethodKey k rest

/-- The errors among a list of branch outcomes, in order. -/
def errsOf (rs : List AResult) : List AErr :=
  rs.filterMap fun r => match r with | .err e => some e | _ => none

/-- Whether some branch outcome aborted. -/
def hasCrash (rs : List AResult) : Bool :=
  rs.any fun r => match r with | .crash => true | _ => false

/-- Whether some branch outcome succeeded. -/
def hasOk (rs : List AResult) : Bool :=
  rs.any fun r => match r with | .ok => true | _ => false

/-- Combine the branch outcomes of a union on the right-hand side
(assign.rs lines 153-168): the `filter_map` collects every branch error; a
panicking branch aborts the whole check. -/
def unionRhsCombine (rs : List AResult) : AResult :=
  if hasCrash rs then .crash
  else match errsOf rs with
    | [] => .ok
    | es => .err (.unionError es)

/-- Combine the branch outcomes of a union on the target side
(assign.rs lines 253-266): every branch is evaluated eagerly into a vector,
then any success wins; otherwise all branch errors aggregate. -/
def unionToCombine (rs : List AResult) : AResult :=
  if hasCrash rs then .crash
  else if hasOk rs then .ok
  else .err (.unionError (errsOf rs))

/-- Combine the branch outcomes of an intersection target
(assign.rs lines 268-285): the first failing branch is wrapped. -/
def interToCombine (rs : List AResult) : AResult :=
  if hasCrash rs then .crash
  else match errsOf rs with
    | [] => .ok
    | e :: _ => .err (.intersectionError e)

/-- Sequence outcomes, stopping at the first non-success (the `?` operator
in the array/tuple element loop of assign.rs lines 244-249). -/
def seqAll : List AResult → AResult
  | [] => .ok
  | .ok :: rest => seqAll rest
  | r :: _ => r

/-- Sequence the zipped tuple-element outcomes (assign.rs lines 427-458): a
failing pair is tolerated when the right element is the `undefined` keyword. -/
def tupleSeq : List (AResult × Bool) → AResult
  | [] => .ok
  | (.ok, _) :: rest => tupleSeq rest
  | (.crash, _) :: _ => .crash
  | (.err e, rUndef) :: rest => if rUndef then tupleSeq rest else .err e

/-- Outcome of scanning the source members for one target member. -/
inductive MemScan where
  | satisfied
  | missing
  | failed (e : AErr)
  | crashed

/-- Result of `handle_type_lit`'s member loop. -/
inductive HTLRes where
  | done (missing : List TyElem)
  | failed (e : AErr)
  | crashed

/-- Fold the per-member scan outcomes in order: the first failing property
assignment returns its error (`?`), a method/method pair aborts, and members
without counterparts accumulate in order. -/
def memberFold : List (TyElem × MemScan) → HTLRes
  | [] => .done []
  | (_, .satisfied) :: rest => memberFold rest
  | (m, .missing) :: rest =>
    match memberFold rest with
    | .done miss => .done (m :: miss)
    | r => r
  | (_, .failed e) :: _ => .failed e
  | (_, .crashed) :: _ => .crashed

/-- Every list has positive size. -/
theorem one_le_sizeOf_list {a : Type} [SizeOf a] (l : List a) : 1 <= sizeOf l := by
  cases l <;> simp <;> omega

/-- Size bound for the annotation found by `findPropAnn`: needed to justify
the recursion of the member-wise assignment. -/
theorem sizeOf_findPropAnn {k : String} {ms : List TyElem} {ann : Option Ty}
    (h : findPropAnn k ms = some ann) : sizeOf ann + 3 <= sizeOf ms := by
  induction ms with
  | nil => simp [findPropAnn] at h
  | cons m rest ih =>
    have hrest := one_le_sizeOf_list rest
    match m with
    | .property k2 a =>
      simp only [findPropAnn] at h
      by_cases hk : (k2 == k) = true
      · simp [hk] at h
        subst h
        simp
        omega
      · simp [hk] at h
        have := ih h
        simp
        omega
    | .method k2 =>
      simp only [findPropAnn] at h
      have := ih h
      simp
      omega
    | .callSig =>
      simp only [findPropAnn] at h
      have := ih h
      simp
      omega
    | .constructSig =>
      simp only [findPropAnn] at h
      have := ih h
      simp
      omega

/-- The shared fall-through tail of `try_assign` (assign.rs lines 479-489):
succeed when the two types are structurally equal ignoring names and spans,
otherwise abort (`unimplemented!()`). -/
def assignFallback (tgt rhs : Ty) : AResult :=
  if eqNN tgt rhs then .ok else .crash

mutual
/-- Shallow embedding of `try_assign` (src/typescript/checker/src/ty/assign.rs,
lines 26-489).  `Type::normalize()` is the identity on the algebraic values,
so the `normalize` calls of the source are dropped. -/
def tryAssign (tgt rhs : Ty) : AResult :=
  if tgt.isKeyword .any || tgt.isKeyword .unknown then .ok
  else
    match rhs with
    | .union bs => unionRhsCombine (bs.attach.map fun bp => tryAssign tgt bp.1)
    | .keyword .any => .ok
    | .keyword .unknown =>
      if tgt.isKeyword .any || tgt.isKeyword .undef then .ok
      else .err (.assignFailed tgt (.keyword .unknown) [])
    | .param name c =>
      if (match tgt with | .param lname _ => lname == name | _ => false) then .ok
      else
        match c with
        | some cc => tryAssign tgt cc
        | none =>
          match tgt with
          | .typeLit [] => .ok
          | _ => .err (.assignFailed tgt (.param name c) [])
    | rhs =>
      match tgt with
      | .array elem =>
        (match rhs with
         | .array relem =>
           (match tryAssign elem relem with
            | .ok => .ok
            | .crash => .crash
            | .err c => .err (.assignFailed tgt rhs [c]))
         | .tuple ts => seqAll (ts.attach.map fun tp => tryAssign elem tp.1)
         | _ => .err (.assignFailed tgt rhs []))
      | .union ts => unionToCombine (ts.attach.map fun tp => tryAssign tp.1 rhs)
      | .inter ts => interToCombine (ts.attach.map fun tp => tryAssign tp.1 rhs)
      | .keyword .objectK =>
        (match rhs with
         | .keyword .numK => .ok
         | .keyword .strK => .ok
         | .fn _ _ _ => .ok
         | .ctor _ _ _ => .ok
         | .enumT _ => .ok
         | .cls _ => .ok
         | .typeLit _ => .ok
         | _ => assignFallback tgt rhs)
      | .keyword k =>
        if (match rhs with | .keyword k2 => k2 == k | _ => false) then .ok
        else
          (match k, rhs with
           | .strK, .lit (.str _) => .ok
           | .numK, .lit (.num _) => .ok
           | .boolK, .lit (.bool _) => .ok
           | _, _ => .err (.assignFailed tgt rhs []))
      | .enumT id =>
        (match rhs with
         | .enumVariant en _ =>
           if en == id then .ok else .err (.assignFailed tgt rhs [])
         | _ => .err (.assignFailed tgt rhs []))
      | .enumVariant en nm =>
        (match rhs with
         | .enumVariant en2 nm2 =>
           if en == en2 && nm == nm2 then .ok else .err (.assignFailed tgt rhs [])
         | _ => .err (.assignFailed tgt rhs []))
      | .this => .err .cannotAssignToThis
      | .iface _ body => handleTypeLit tgt rhs body
      | .typeLit ms => handleTypeLit tgt rhs ms
      | .lit l =>
        (match rhs with
         | .lit rl => if l == rl then .ok else .err (.assignFailed tgt rhs [])
         | _ => .err (.assignFailed tgt rhs []))
      | .fn none _ ret =>
        (match rhs with
         | .fn none _ rret =>
           (match tryAssign ret rret with
            | .ok => .ok
            | .err e => .err e
            | .crash => .crash)
         | _ => assignFallback tgt rhs)
      | .tuple ls =>
        (match rhs with
         | .tuple rs2 =>
           tupleSeq ((ls.zip rs2).attach.map fun pp =>
             (tryAssign pp.1.1 pp.1.2, pp.1.2.isKeyword .undef))
         | _ => assignFallback tgt rhs)
      | .other .typePredicate =>
        (match rhs with
         | .keyword .boolK => .ok
         | .lit (.bool _) => .ok
         | _ => assignFallback tgt rhs)
      | _ => assignFallback tgt rhs
termination_by sizeOf tgt + sizeOf rhs
decreasing_by
all_goals simp_wf
all_goals try omega
all_goals
  first
  | (have h1 := List.sizeOf_lt_of_mem bp.2
     omega)
  | (have h1 := List.sizeOf_lt_of_mem tp.2
     omega)
  | (have h1 := List.of_mem_zip (a := (pp.1).1) (b := (pp.1).2) (by simpa using pp.2)
     have h2 := List.sizeOf_lt_of_mem h1.1
     have h3 := List.sizeOf_lt_of_mem h1.2
     omega)

/-- Shallow embedding of the `handle_type_lit!` macro of `try_assign`
(assign.rs lines 69-135), shared by the `Interface` and `TypeLit` target
arms.  `ms` is the target member list; `tgt` is the original target type,
used for error construction and the shared fall-through tail. -/
def handleTypeLit (tgt rhs : Ty) (ms : List TyElem) : AResult :=
  match rhs with
  | .typeLit rms =>
    (match memberFold (ms.attach.map fun mp => (mp.1, scanMember rms mp.1)) with
     | .done [] => .ok
     | .done miss => .err (.missingFields miss)
     | .failed e => .err e
     | .crashed => .crash)
  | .tuple _ => .err (.assignFailed tgt rhs [])
  | .array _ => .err (.assignFailed tgt rhs [])
  | .lit _ => .err (.assignFailed tgt rhs [])
  | _ => assignFallback tgt rhs
termination_by sizeOf ms + sizeOf rhs
decreasing_by
all_goals simp_wf
all_goals
  (have h1 := List.sizeOf_lt_of_mem mp.2
   omega)

/-- The per-member scan of `handle_type_lit` (assign.rs lines 80-118): a
keyed property member looks for the first property with the same key in the
source and recursively assigns the two annotations (missing annotations
default to `any`); a method member aborts when the source also has a method
of that key; a keyless member looks for a structurally equal counterpart. -/
def scanMember (rms : List TyElem) (m : TyElem) : MemScan :=
  match m with
  | .property k mAnn =>
    (match hf : findPropAnn k rms with
     | some rAnn =>
       (match tryAssign (mAnn.getD (.keyword .any)) (rAnn.getD (.keyword .any)) with
        | .ok => MemScan.satisfied
        | .err e => MemScan.failed e
        | .crash => MemScan.crashed)
     | none => MemScan.missing)
  | .method k => if hasMethodKey k rms then MemScan.crashed else MemScan.missing
  | m2 => if rms.any fun rm => eqNNElem rm m2 then MemScan.satisfied else MemScan.missing
termination_by sizeOf m + sizeOf rms
decreasing_by
all_goals simp_wf
all_goals
  (have h2 := sizeOf_findPropAnn hf
   cases mAnn <;> cases rAnn <;> simp [Option.getD] at * <;> omega)
end

/-- Function parameter patterns (`TsFnParam`): the embedded functions only
ever count them, so the pattern payloads are elided. -/
inductive TsFnParam where
  | identP (name : String)
  | restP
  | arrayP
  | objectP
  deriving DecidableEq, Repr

mutual
/-- The syntactic type tree (`swc_ecma_ast::TsType`) that the expression
inference engine of src/typescript/checker/src/analyzer/expr.rs operates on.
The `TsUnionOrIntersectionType` wrapper is flattened into the two variants. -/
inductive TsType where
  | tsKeyword (k : KwKind)
  | tsLit (l : TsLitV)
  | tsArray (elem : TsType)
  | tsTuple (elems : List TsType)
  | tsUnion (types : List TsType)
  | tsIntersection (types : List TsType)
  | tsTypeLit (members : List TsTypeElement)
  | tsFn (params : List TsFnParam) (typeParams : Option Nat) (ret : TsType)
  | tsConstructorT (params : List TsFnParam) (typeParams : Option Nat) (ret : TsType)
  | tsThis
  | tsTypeRef (name : String)
  | tsIndexedAccess (obj idx : TsType)

/-- Members of a syntactic type literal (`TsTypeElement`).  Signature return
annotations are optional (`type_ann`); type-parameter declarations are
elided to counts, since `try_instantiate` only reads their length. -/
inductive TsTypeElement where
  | tsCallSig (params : List TsFnParam) (typeParams : Option Nat) (retAnn : Option TsType)
  | tsConstructSig (params : List TsFnParam) (typeParams : Option Nat) (retAnn : Option TsType)
  | tsMethodSig (key : String) (params : List TsFnParam) (retAnn : Option TsType)
  | tsPropertySig (key : String) (typeAnn : Option TsType)
end

/-- `is_never` of src/typescript/checker/src/analyzer/expr.rs (lines 986-994),
embedded exactly as written: it returns `false` precisely on the `never`
keyword, the opposite of what its name says. -/
def isNever : TsType → Bool
  | .tsKeyword .never => false
  | _ => true

/-- `RemoveTypes::remove_falsy` on `TsType`
(src/typescript/checker/src/analyzer/expr.rs, lines 923-984): `undefined` and
`null` keywords become `never`; unions recurse and keep the branches on which
`is_never` is `false`; intersections recurse and collapse to `never` when
`is_never` holds of some branch; every other shape (including the literal
`false`) is returned unchanged. -/
def removeFalsy : TsType → TsType
  | .tsUnion ts =>
    .tsUnion ((ts.attach.map fun tp => removeFalsy tp.1).filter fun t => !(isNever t))
  | .tsIntersection ts =>
    let ts2 := ts.attach.map fun tp => removeFalsy tp.1
    if ts2.any fun t => isNever t then .tsKeyword .never
    else .tsIntersection ts2
  | .tsKeyword .undef => .tsKeyword .never
  | .tsKeyword .nullK => .tsKeyword .never
  | t => t
termination_by t => sizeOf t
decreasing_by
all_goals simp_wf
all_goals
  (have h1 := List.sizeOf_lt_of_mem tp.2
   omega)

/-- `negate` (src/typescript/checker/src/analyzer/expr.rs, lines 996-1030):
boolean literals are complemented; number and string literals become the
boolean literal `value != 0.0` / `value != ""`; everything else becomes the
`boolean` keyword. -/
def negate : TsType → TsType
  | .tsLit (.bool b) => .tsLit (.bool (!b))
  | .tsLit (.num n) => .tsLit (.bool (n != 0))
  | .tsLit (.str s) => .tsLit (.bool (s != ""))
  | _ => .tsKeyword .boolK

/-- Errors of the signature resolver (`crate::errors::Error`, restricted to
the kinds `extract` / `try_instantiate` construct).  `WrongTypeParams` /
`WrongParams` carry the upper bound of the expected range and the actual
count the source stores. -/
inductive XErr where
  | noCallSignature
  | noNewSignature
  | wrongTypeParams (expected actual : Nat)
  | wrongParams (expected actual : Nat)
  | unionError (errors : List XErr)

/-- `ExtractKind`: call expression vs `new` expression. -/
inductive ExtractKind where
  | call
  | new
  deriving DecidableEq, Repr

/-- The `ret_err!` macro of `extract`. -/
def retErr : ExtractKind → XErr
  | .call => .noCallSignature
  | .new => .noNewSignature

/-- `try_instantiate` (src/typescript/checker/src/analyzer/expr.rs, lines
764-795): rejects more type arguments than type parameters, rejects fewer
call arguments than declared parameters (storing, as the source does, the
type-argument count in the `actual` field), and otherwise returns the
declared return type unchanged. -/
def tryInstantiate (ret : TsType) (paramDecls : List TsFnParam)
    (tyParamsDecl : Option Nat) (argCount : Nat) (tyArgs : Option Nat) :
    Except XErr TsType :=
  let typeParamsLen := tyParamsDecl.getD 0
  let typeArgsLen := tyArgs.getD 0
  if typeArgsLen > typeParamsLen then .error (.wrongTypeParams typeParamsLen typeArgsLen)
  else if paramDecls.length > argCount then .error (.wrongParams paramDecls.length typeArgsLen)
  else .ok ret

/-- The member loop of `extract`'s `TsTypeLit` arm: the first call/construct
signature of the requested kind whose instantiation succeeds wins;
instantiation errors are swallowed; exhaustion yields `ret_err!`. -/
def extractSigs (kind : ExtractKind) (argCount : Nat) (tyArgs : Option Nat) :
    List TsTypeElement → Except XErr TsType
  | [] => .error (retErr kind)
  | .tsCallSig ps tps ann :: rest =>
    if kind == .call then
      match tryInstantiate (ann.getD (.tsKeyword .any)) ps tps argCount tyArgs with
      | .ok v => .ok v
      | .error _ => extractSigs kind argCount tyArgs rest
    else extractSigs kind argCount tyArgs rest
  | .tsConstructSig ps tps ann :: rest =>
    if kind == .new then
      match tryInstantiate (ann.getD (.tsKeyword .any)) ps tps argCount tyArgs with
      | .ok v => .ok v
      | .error _ => extractSigs kind argCount tyArgs rest
    else extractSigs kind argCount tyArgs rest
  | _ :: rest => extractSigs kind argCount tyArgs rest

/-- The union loop of `extract`: branches are tried in order, the first
success is returned, and if all fail the per-branch errors aggregate into a
`UnionError`. -/
def unionExtractGo : List (Except XErr TsType) → List XErr → Except XErr TsType
  | [], acc => .error (.unionError acc.reverse)
  | .ok v :: _, _ => .ok v
  | .error e :: rest, acc => unionExtractGo rest (e :: acc)

/-- `extract` (src/typescript/checker/src/analyzer/expr.rs, lines 631-762):
resolves a callee type against an argument list.  Only the lengths of the
argument and type-argument lists are consumed, so they are passed as counts.
Every callee shape without a matching arm, including the `any` keyword,
falls to `ret_err!`. -/
def extract (ty : TsType) (kind : ExtractKind) (argCount : Nat)
    (tyArgs : Option Nat) : Except XErr TsType :=
  match ty with
  | .tsTypeLit members => extractSigs kind argCount tyArgs members
  | .tsFn ps tps retAnn =>
    if kind == .call then tryInstantiate retAnn ps tps argCount tyArgs
    else .error (retErr kind)
  | .tsConstructorT ps tps retAnn =>
    if kind == .new then tryInstantiate retAnn ps tps argCount tyArgs
    else .error (retErr kind)
  | .tsUnion ts =>
    unionExtractGo (ts.attach.map fun tp => extract tp.1 kind argCount tyArgs) []
  | _ => .error (retErr kind)
termination_by sizeOf ty
decreasing_by
all_goals simp_wf
all_goals
  (have h1 := List.sizeOf_lt_of_mem tp.2
   omega)

/-- `is_keyword` holds exactly of the keyword constructor. -/
theorem isKeyword_iff {t : Ty} {k : KwKind} : t.isKeyword k = true ↔ t = .keyword k := by
  cases t <;> simp [Ty.isKeyword]

/-- Anything is assignable to the `any` keyword target. -/
theorem tryAssign_any_tgt (rhs : Ty) : tryAssign (.keyword .any) rhs = .ok := by
  cases rhs with
  | keyword k => cases k <;> simp [tryAssign, Ty.isKeyword]
  | param n c => cases c <;> simp [tryAssign, Ty.isKeyword]
  | _ => simp [tryAssign, Ty.isKeyword]

/-- Anything is assignable to the `unknown` keyword target. -/
theorem tryAssign_unknown_tgt (rhs : Ty) : tryAssign (.keyword .unknown) rhs = .ok := by
  cases rhs with
  | keyword k => cases k <;> simp [tryAssign, Ty.isKeyword]
  | param n c => cases c <;> simp [tryAssign, Ty.isKeyword]
  | _ => simp [tryAssign, Ty.isKeyword]

/-- An `any` source is accepted by every target. -/
theorem tryAssign_any_rhs (tgt : Ty) : tryAssign tgt (.keyword .any) = .ok := by
  rw [tryAssign]
  split <;> rfl

/-- C1. The claim asserts that `type_of` and `assign` never abort the host
process on unhandled shapes.  The code aborts: the tail of `try_assign` is
`unimplemented!()`, reached for instance when the target is an
unconstrained type parameter and the source is the `string` keyword. -/
theorem assign_unimplemented_abort :
    tryAssign (.param "T" none) (.keyword .strK) = .crash := by
  simp [tryAssign, Ty.isKeyword, assignFallback, eqNN]

/-- C5 counterexample. The claim says `assign(T, unknown)` fails for every
target outside `{any, undefined}`; but `assign(unknown, unknown)` succeeds
through the early `to == unknown` rule. -/
theorem unknown_to_unknown_ok :
    tryAssign (.keyword .unknown) (.keyword .unknown) = .ok ∧
    (Ty.keyword .unknown ≠ .keyword .any) ∧ (Ty.keyword .unknown ≠ .keyword .undef) := by
  refine ⟨?_, by simp, by simp⟩
  simp [tryAssign, Ty.isKeyword]

/-- C5 amended. `assign(T, unknown)` succeeds exactly for
`T ∈ {any, unknown, undefined}`: outside these three keywords it fails
with an `AssignFailed` error. -/
theorem assign_unknown_source_rejected (t : Ty)
    (h1 : t ≠ .keyword .any) (h2 : t ≠ .keyword .unknown) (h3 : t ≠ .keyword .undef) :
    tryAssign t (.keyword .unknown) = .err (.assignFailed t (.keyword .unknown) []) := by
  have ha : t.isKeyword .any = false := by
    rw [Bool.eq_false_iff]
    intro hc
    exact h1 (isKeyword_iff.mp hc)
  have hu : t.isKeyword .unknown = false := by
    rw [Bool.eq_false_iff]
    intro hc
    exact h2 (isKeyword_iff.mp hc)
  have hd : t.isKeyword .undef = false := by
    rw [Bool.eq_false_iff]
    intro hc
    exact h3 (isKeyword_iff.mp hc)
  rw [tryAssign]
  simp [ha, hu, hd]

/-- C5 amended, witness at `T = string`. -/
theorem assign_unknown_source_rejected_witness :
    tryAssign (.keyword .strK) (.keyword .unknown) =
      .err (.assignFailed (.keyword .strK) (.keyword .unknown) []) :=
  assign_unknown_source_rejected (.keyword .strK) (by simp) (by simp) (by simp)

/-- C6. `remove_falsy` on the syntactic tree uses the inverted `is_never`:
on `Union(null, string)` it drops the `string` branch and keeps the `never`
branch (the claim predicts `Union(string)`), and it leaves the literal
`false` unchanged (the claim predicts `never`). -/
theorem remove_falsy_inverted :
    removeFalsy (.tsUnion [.tsKeyword .nullK, .tsKeyword .strK]) =
      .tsUnion [.tsKeyword .never] ∧
    removeFalsy (.tsLit (.bool false)) = .tsLit (.bool false) := by
  constructor
  · simp [removeFalsy, isNever]
  · simp [removeFalsy]

/-- C7. `negate` computes the truthiness, not its negation, for number and
string literals: `negate(1)` is the literal `true` (the claim predicts
`false`), `negate("a")` is the literal `true`; only boolean literals are
actually complemented. -/
theorem negate_truthiness_not_negation :
    negate (.tsLit (.num 1)) = .tsLit (.bool true) ∧
    negate (.tsLit (.str "a")) = .tsLit (.bool true) ∧
    negate (.tsLit (.bool true)) = .tsLit (.bool false) := by
  refine ⟨?_, ?_, rfl⟩ <;> rfl

/-- C8 counterexample. `extract` on an `any` callee falls to the catch-all
`ret_err!` arm and returns `NoCallSignature`, not the `any` type. -/
theorem extract_any_counterexample :
    extract (.tsKeyword .any) .call 0 none = .error .noCallSignature := by
  simp [extract, retErr]

/-- C8 amended. For every kind and every argument/type-argument count,
`extract` applied to the `any` keyword callee returns `NoCallSignature`
(for calls) or `NoNewSignature` (for `new`); the `any`-shortcut of the spec
exists only in `extract_call_new_expr`'s member-call path. -/
theorem extract_any_returns_no_signature (kind : ExtractKind) (argCount : Nat)
    (tyArgs : Option Nat) :
    extract (.tsKeyword .any) kind argCount tyArgs = .error (retErr kind) := by
  simp [extract]

/-- When the target is neither `any` nor `unknown`, assigning from a union
checks every branch (assign.rs lines 153-168). -/
theorem tryAssign_union_rhs (tgt : Ty) (ss : List Ty)
    (ha : tgt.isKeyword .any = false) (hu : tgt.isKeyword .unknown = false) :
    tryAssign tgt (.union ss) = unionRhsCombine (ss.map (tryAssign tgt)) := by
  rw [tryAssign.eq_1, ha, hu]
  simp only [Bool.or_self, Bool.false_eq_true, if_false]
  rw [List.attach_map_coe]

/-- `unionRhsCombine` succeeds exactly when every branch outcome succeeds. -/
theorem unionRhsCombine_ok_iff (rs : List AResult) :
    unionRhsCombine rs = .ok ↔ ∀ r ∈ rs, r = .ok := by
  constructor
  · intro h r hr
    cases r with
    | ok => rfl
    | err e =>
      unfold unionRhsCombine at h
      by_cases hc : hasCrash rs = true
      · simp [hc] at h
      · simp [hc] at h
        have hmem : e ∈ errsOf rs := by
          unfold errsOf
          exact List.mem_filterMap.mpr ⟨.err e, hr, rfl⟩
        cases hEr : errsOf rs with
        | nil => rw [hEr] at hmem; simp at hmem
        | cons a as_ => rw [hEr] at h; simp at h
    | crash =>
      unfold unionRhsCombine at h
      have hc : hasCrash rs = true := by
        unfold hasCrash
        exact List.any_eq_true.mpr ⟨.crash, hr, rfl⟩
      simp [hc] at h
  · intro hall
    have hc : hasCrash rs = false := by
      rw [Bool.eq_false_iff]
      intro hx
      obtain ⟨r, hr, hp⟩ := List.any_eq_true.mp hx
      have := hall r hr
      subst this
      simp at hp
    have he : errsOf rs = [] := by
      unfold errsOf
      rw [List.filterMap_eq_nil]
      intro a ha
      have := hall a ha
      subst this
      rfl
    unfold unionRhsCombine
    simp [hc, he]

/-- On failure, `unionRhsCombine` returns the union of all branch errors. -/
theorem unionRhsCombine_err (rs : List AResult) (e : AErr)
    (h : unionRhsCombine rs = .err e) : e = .unionError (errsOf rs) := by
  unfold unionRhsCombine at h
  by_cases hc : hasCrash rs = true
  · simp [hc] at h
  · simp [hc] at h
    cases hEr : errsOf rs with
    | nil => rw [hEr] at h; simp at h
    | cons a as_ =>
      rw [hEr] at h
      simp at h
      exact h.symm

/-- C2. For every target `T` and union source, `assign(T, Union(S1..Sn))`
succeeds iff every branch is individually assignable to `T`, and on failure
it returns a `UnionError` collecting the error of every failing branch. -/
theorem assign_union_source_universal (tgt : Ty) (ss : List Ty) :
    (tryAssign tgt (.union ss) = .ok ↔ ∀ s ∈ ss, tryAssign tgt s = .ok) ∧
    (∀ e, tryAssign tgt (.union ss) = .err e →
      e = .unionError (errsOf (ss.map fun s => tryAssign tgt s))) := by
  by_cases ha : tgt.isKeyword .any = true
  · obtain rfl := isKeyword_iff.mp ha
    constructor
    · simp [tryAssign_any_tgt]
    · intro e he
      simp [tryAssign_any_tgt] at he
  · by_cases hu : tgt.isKeyword .unknown = true
    · obtain rfl := isKeyword_iff.mp hu
      constructor
      · simp [tryAssign_unknown_tgt]
      · intro e he
        simp [tryAssign_unknown_tgt] at he
    · have hA : tgt.isKeyword .any = false := Bool.eq_false_iff.mpr ha
      have hU : tgt.isKeyword .unknown = false := Bool.eq_false_iff.mpr hu
      rw [tryAssign_union_rhs tgt ss hA hU]
      constructor
      · rw [unionRhsCombine_ok_iff]
        constructor
        · intro h s hs
          exact h (tryAssign tgt s) (List.mem_map.mpr ⟨s, hs, rfl⟩)
        · intro h r hr
          obtain ⟨s, hs, rfl⟩ := List.mem_map.mp hr
          exact h s hs
      · intro e he
        exact unionRhsCombine_err _ e he

/-- C2 witness at `T = string`, source `Union(number)`. -/
theorem assign_union_source_universal_witness :
    AErr.unionError [.assignFailed (.keyword .strK) (.keyword .numK) []] =
      .unionError (errsOf ([Ty.keyword .numK].map fun s => tryAssign (.keyword .strK) s)) :=
  (assign_union_source_universal (.keyword .strK) [.keyword .numK]).2 _
    (by simp [tryAssign, Ty.isKeyword, unionRhsCombine, hasCrash, errsOf])

/-- The source shapes that fall through the early source dispatch of
`try_assign`: not a union, not the `any`/`unknown` keyword, not a type
parameter. -/
def rhsDirect : Ty → Prop
  | .union _ => False
  | .keyword .any => False
  | .keyword .unknown => False
  | .param _ _ => False
  | _ => True

/-- When the source falls through the early source dispatch, a union
target tries every branch (assign.rs lines 253-266). -/
theorem tryAssign_union_tgt (ts : List Ty) (c : Ty) (hc : rhsDirect c) :
    tryAssign (.union ts) c = unionToCombine (ts.map fun t => tryAssign t c) := by
  cases c with
  | union bs => simp [rhsDirect] at hc
  | param n cc => simp [rhsDirect] at hc
  | keyword k =>
    cases k <;> simp_all [rhsDirect, tryAssign, Ty.isKeyword, List.attach_map_coe]
  | _ => simp [tryAssign, Ty.isKeyword, List.attach_map_coe]

/-- `unionToCombine` on two non-aborting outcomes succeeds exactly when one
of them succeeds. -/
theorem unionToCombine_two (ra rb : AResult) (ha : ra ≠ .crash) (hb : rb ≠ .crash) :
    unionToCombine [ra, rb] = .ok ↔ (ra = .ok ∨ rb = .ok) := by
  cases ra <;> cases rb <;>
    simp_all [unionToCombine, hasCrash, hasOk, errsOf]

/-- C3 counterexample. The claimed equivalence fails when the source is
itself a union: `Union(string, number)` accepts `Union("x", 1)` (each branch
matches one target arm), yet neither `string` nor `number` alone accepts
`Union("x", 1)`. -/
theorem union_target_existential_counterexample :
    tryAssign (.union [.keyword .strK, .keyword .numK])
        (.union [.lit (.str "x"), .lit (.num 1)]) = .ok ∧
    tryAssign (.keyword .strK) (.union [.lit (.str "x"), .lit (.num 1)]) ≠ .ok ∧
    tryAssign (.keyword .numK) (.union [.lit (.str "x"), .lit (.num 1)]) ≠ .ok := by
  refine ⟨?_, ?_, ?_⟩ <;>
    simp [tryAssign, Ty.isKeyword, unionRhsCombine, unionToCombine, hasCrash, hasOk, errsOf]

/-- C3 amended. The existential distribution on the target side holds for
every source `C` that is not itself a union, not the `unknown` keyword and
not a type parameter (those shapes are intercepted by the earlier source
dispatch), provided neither branch check aborts:
`assign(Union(A,B), C)` succeeds iff `assign(A,C)` or `assign(B,C)` does. -/
theorem assign_union_target_existential (a b c : Ty)
    (hu : ∀ ts, c ≠ .union ts) (hk : c ≠ .keyword .unknown)
    (hp : ∀ n t, c ≠ .param n t)
    (ha : tryAssign a c ≠ .crash) (hb : tryAssign b c ≠ .crash) :
    (tryAssign (.union [a, b]) c = .ok ↔
      (tryAssign a c = .ok ∨ tryAssign b c = .ok)) := by
  by_cases hany : c = .keyword .any
  · subst hany
    simp [tryAssign_any_rhs]
  · have hdir : rhsDirect c := by
      cases c with
      | union ts => exact (hu ts) rfl
      | param n t => exact (hp n t) rfl
      | keyword k =>
        cases k with
        | any => exact absurd rfl hany
        | unknown => exact absurd rfl hk
        | _ => exact trivial
      | _ => exact trivial
    rw [tryAssign_union_tgt [a, b] c hdir]
    have h2 : ([a, b].map fun t => tryAssign t c) = [tryAssign a c, tryAssign b c] := rfl
    rw [h2]
    exact unionToCombine_two _ _ ha hb

/-- C3 amended, witness at `A = string`, `B = number`, `C = "x"`. -/
theorem assign_union_target_existential_witness :
    tryAssign (.union [.keyword .strK, .keyword .numK]) (.lit (.str "x")) = .ok ↔
      (tryAssign (.keyword .strK) (.lit (.str "x")) = .ok ∨
       tryAssign (.keyword .numK) (.lit (.str "x")) = .ok) :=
  assign_union_target_existential (.keyword .strK) (.keyword .numK) (.lit (.str "x"))
    (by simp) (by simp) (by simp)
    (by simp [tryAssign, Ty.isKeyword])
    (by simp [tryAssign, Ty.isKeyword])

/-- Tuple-to-tuple assignment zips the element lists, truncating at the
shorter one (assign.rs lines 427-458). -/
theorem tryAssign_tuple_tuple (ls rs : List Ty) :
    tryAssign (.tuple ls) (.tuple rs) =
      tupleSeq ((ls.zip rs).map fun p => (tryAssign p.1 p.2, p.2.isKeyword .undef)) := by
  rw [tryAssign]
  rw [if_neg (by simp [Ty.isKeyword])]
  exact congrArg tupleSeq
    (List.attach_map_coe (ls.zip rs) fun p => (tryAssign p.1 p.2, p.2.isKeyword .undef))

/-- `tupleSeq` succeeds when every pair outcome succeeds or is a tolerated
error (the flag marking an `undefined` source element). -/
theorem tupleSeq_ok (ps : List (AResult × Bool))
    (h : ∀ p ∈ ps, p.1 = .ok ∨ (p.2 = true ∧ ∃ e, p.1 = .err e)) :
    tupleSeq ps = .ok := by
  induction ps with
  | nil => rfl
  | cons hd tl ih =>
    obtain ⟨r, b⟩ := hd
    rcases h (r, b) (List.mem_cons_self _ _) with hok | ⟨hb, e, he⟩
    · simp at hok
      subst hok
      exact ih fun p hp => h p (List.mem_cons_of_mem _ hp)
    · simp at hb he
      subst hb
      subst he
      simp only [tupleSeq, if_true]
      exact ih fun p hp => h p (List.mem_cons_of_mem _ hp)

/-- C10 counterexample. A zipped pair whose source element is the
`undefined` keyword is claimed to be tolerated unconditionally; but when the
pair comparison aborts (here: target element is an unconstrained type
parameter) the whole assignment aborts instead of succeeding, even though
the target tuple is longer than the source tuple. -/
theorem tuple_length_counterexample :
    tryAssign (.tuple [.param "T" none, .keyword .strK]) (.tuple [.keyword .undef]) =
      .crash := by
  simp [tryAssign, Ty.isKeyword, tupleSeq, assignFallback, eqNN]

/-- C10 amended. For tuples of any two lengths, element pairs are compared
only up to the shorter length and the length mismatch itself never causes
failure: the assignment succeeds whenever every zipped pair's comparison
either succeeds, or returns an error (rather than aborting) while the
source element is the `undefined` keyword. -/
theorem assign_tuple_zip (ls rs : List Ty)
    (h : ∀ p ∈ ls.zip rs, tryAssign p.1 p.2 = .ok ∨
         (p.2 = .keyword .undef ∧ ∃ e, tryAssign p.1 p.2 = .err e)) :
    tryAssign (.tuple ls) (.tuple rs) = .ok := by
  rw [tryAssign_tuple_tuple]
  apply tupleSeq_ok
  intro q hq
  obtain ⟨p, hp, rfl⟩ := List.mem_map.mp hq
  rcases h p hp with hok | ⟨hund, e, he⟩
  · exact Or.inl hok
  · right
    refine ⟨?_, e, he⟩
    rw [hund]
    rfl

/-- C10 amended, witness: `[number, any] := [undefined]` (unequal lengths,
failing pair tolerated because the source element is `undefined`). -/
theorem assign_tuple_zip_witness :
    tryAssign (.tuple [.keyword .numK, .keyword .any]) (.tuple [.keyword .undef]) =
      .ok :=
  assign_tuple_zip [.keyword .numK, .keyword .any] [.keyword .undef]
    (by
      intro p hp
      simp [List.zip] at hp
      subst hp
      right
      exact ⟨rfl, .assignFailed (.keyword .numK) (.keyword .undef) [],
        by simp [tryAssign, Ty.isKeyword]⟩)

/-- A target member with no counterpart in the source members: a property
with no same-keyed source property, a method with no same-keyed source
method, a keyless member with no structurally equal source member. -/
def noCounterpart (rms : List TyElem) : TyElem → Bool
  | .property k _ => (findPropAnn k rms).isNone
  | .method k => !hasMethodKey k rms
  | m => !(rms.any fun rm => eqNNElem rm m)

/-- A `TypeLit` target against a `TypeLit` source dispatches to
`handleTypeLit` (assign.rs line 389). -/
theorem tryAssign_typeLit_typeLit (ms rms : List TyElem) :
    tryAssign (.typeLit ms) (.typeLit rms) =
      handleTypeLit (.typeLit ms) (.typeLit rms) ms := by
  rw [tryAssign] <;> simp [Ty.isKeyword]

/-- An `Interface` target against a `TypeLit` source dispatches its body to
`handleTypeLit` (assign.rs line 387). -/
theorem tryAssign_iface_typeLit (nm : String) (ms rms : List TyElem) :
    tryAssign (.iface nm ms) (.typeLit rms) =
      handleTypeLit (.iface nm ms) (.typeLit rms) ms := by
  rw [tryAssign] <;> simp [Ty.isKeyword]

/-- `handleTypeLit` on a `TypeLit` source scans each target member in
order. -/
theorem handleTypeLit_typeLit (tgt : Ty) (ms rms : List TyElem) :
    handleTypeLit tgt (.typeLit rms) ms =
      (match memberFold (ms.map fun m => (m, scanMember rms m)) with
       | .done [] => .ok
       | .done miss => .err (.missingFields miss)
       | .failed e => .err e
       | .crashed => .crash) := by
  rw [handleTypeLit]
  have h : (ms.attach.map fun mp => (mp.1, scanMember rms mp.1)) =
      ms.map fun m => (m, scanMember rms m) :=
    List.attach_map_coe ms fun m => (m, scanMember rms m)
  rw [h]

/-- When every scanned member is either satisfied or missing, the member
fold collects exactly the missing ones, in order. -/
theorem memberFold_filter (rms : List TyElem) (ms : List TyElem)
    (h : ∀ m ∈ ms, scanMember rms m =
      (if noCounterpart rms m then .missing else .satisfied)) :
    memberFold (ms.map fun m => (m, scanMember rms m)) =
      .done (ms.filter fun m => noCounterpart rms m) := by
  induction ms with
  | nil => rfl
  | cons m rest ih =>
    have hm := h m (List.mem_cons_self _ _)
    have hrest := ih fun x hx => h x (List.mem_cons_of_mem _ hx)
    by_cases hc : noCounterpart rms m = true
    · simp only [hc, if_true] at hm
      simp only [List.map_cons, List.filter_cons, hc, if_true]
      simp only [memberFold, hm, hrest]
    · have hcf : noCounterpart rms m = false := Bool.eq_false_iff.mpr hc
      simp only [hcf, Bool.false_eq_true, if_false] at hm
      simp only [List.map_cons, List.filter_cons, hcf, Bool.false_eq_true, if_false]
      simp only [memberFold, hm, hrest]

/-- Scan of a property member, stated without the termination-equation
binder. -/
theorem scanMember_property {rms : List TyElem} {k : String} {mAnn : Option Ty} :
    scanMember rms (.property k mAnn) =
      (match findPropAnn k rms with
       | some rAnn =>
         (match tryAssign (mAnn.getD (.keyword .any)) (rAnn.getD (.keyword .any)) with
          | .ok => MemScan.satisfied
          | .err e => MemScan.failed e
          | .crash => MemScan.crashed)
       | none => MemScan.missing) := by
  rw [scanMember]
  cases hf : findPropAnn k rms with
  | none => rfl
  | some r => rfl

/-- Scan of a method member. -/
theorem scanMember_method {rms : List TyElem} {k : String} :
    scanMember rms (.method k) =
      (if hasMethodKey k rms then MemScan.crashed else MemScan.missing) := by
  rw [scanMember]

/-- Scan of a keyless call-signature member. -/
theorem scanMember_callSig {rms : List TyElem} :
    scanMember rms .callSig =
      (if rms.any fun rm => eqNNElem rm .callSig then MemScan.satisfied
       else MemScan.missing) := by
  rw [scanMember] <;> simp

/-- Scan of a keyless construct-signature member. -/
theorem scanMember_constructSig {rms : List TyElem} :
    scanMember rms .constructSig =
      (if rms.any fun rm => eqNNElem rm .constructSig then MemScan.satisfied
       else MemScan.missing) := by
  rw [scanMember] <;> simp

/-- C9 counterexample. The source is missing a member for the target key
`b`, but because the matched pair `a : string := a : number` fails first,
the returned error is that pair's `AssignFailed`, not a `MissingFields`
listing `b`. -/
theorem missing_fields_counterexample :
    tryAssign
        (.typeLit [.property "a" (some (.keyword .strK)),
                   .property "b" (some (.keyword .numK))])
        (.typeLit [.property "a" (some (.keyword .numK))]) =
      .err (.assignFailed (.keyword .strK) (.keyword .numK) []) ∧
    AResult.err (.assignFailed (.keyword .strK) (.keyword .numK) []) ≠
      .err (.missingFields [.property "b" (some (.keyword .numK))]) := by
  constructor
  · rw [tryAssign_typeLit_typeLit, handleTypeLit_typeLit]
    simp [scanMember, findPropAnn, tryAssign, Ty.isKeyword, memberFold]
  · simp

/-- C9 amended. When the target is a `TypeLiteral` (or an `Interface`,
through its body) and the source is a `TypeLiteral`, provided every matched
property pair's types are assignable and no target method member shares a
key with a source method member, the assignment fails with a
`MissingFields` error listing exactly the target members that have no
counterpart in the source — and succeeds when every member has one. -/
theorem assign_missing_fields (nm : String) (ms rms : List TyElem)
    (hprop : ∀ k mAnn rAnn, (TyElem.property k mAnn) ∈ ms →
      findPropAnn k rms = some rAnn →
      tryAssign (mAnn.getD (.keyword .any)) (rAnn.getD (.keyword .any)) = .ok)
    (hmeth : ∀ k, (TyElem.method k) ∈ ms → hasMethodKey k rms = false) :
    tryAssign (.typeLit ms) (.typeLit rms) =
      (match ms.filter (fun m => noCounterpart rms m) with
       | [] => .ok
       | miss => .err (.missingFields miss)) ∧
    tryAssign (.iface nm ms) (.typeLit rms) =
      (match ms.filter (fun m => noCounterpart rms m) with
       | [] => .ok
       | miss => .err (.missingFields miss)) := by
  have hscan : ∀ m ∈ ms, scanMember rms m =
      (if noCounterpart rms m then .missing else .satisfied) := by
    intro m hm
    match m with
    | .property k mAnn =>
      rw [scanMember_property]
      cases hf : findPropAnn k rms with
      | none => simp [noCounterpart, hf]
      | some rAnn =>
        simp [noCounterpart, hf, hprop k mAnn rAnn hm hf]
    | .method k =>
      rw [scanMember_method, hmeth k hm]
      simp [noCounterpart, hmeth k hm]
    | .callSig =>
      rw [scanMember_callSig]
      have hn : noCounterpart rms .callSig =
          !(rms.any fun rm => eqNNElem rm .callSig) := rfl
      rw [hn]
      cases (rms.any fun rm => eqNNElem rm .callSig) <;> simp
    | .constructSig =>
      rw [scanMember_constructSig]
      have hn : noCounterpart rms .constructSig =
          !(rms.any fun rm => eqNNElem rm .constructSig) := rfl
      rw [hn]
      cases (rms.any fun rm => eqNNElem rm .constructSig) <;> simp
  have hfold := memberFold_filter rms ms hscan
  constructor
  · rw [tryAssign_typeLit_typeLit, handleTypeLit_typeLit, hfold]
    cases ms.filter fun m => noCounterpart rms m <;> rfl
  · rw [tryAssign_iface_typeLit, handleTypeLit_typeLit, hfold]
    cases ms.filter fun m => noCounterpart rms m <;> rfl

/-- C9 amended, witness: the claim's own instance
`assign(TypeLit{a : number}, TypeLit{})` fails with
`MissingFields{fields: [a]}`. -/
theorem assign_missing_fields_witness :
    tryAssign (.typeLit [.property "a" (some (.keyword .numK))]) (.typeLit []) =
      .err (.missingFields [.property "a" (some (.keyword .numK))]) := by
  have h := (assign_missing_fields "I" [.property "a" (some (.keyword .numK))] []
    (by intro k a r hm hf; simp [findPropAnn] at hf)
    (by intro k hm; simp [hasMethodKey])).1
  rw [h]
  rfl

/-- Reflexivity of the name-erasing structural equality, proved for all five
mutually recursive comparators at once by strong induction on size. -/
theorem eqNN_refl_bounded :
    ∀ n : Nat,
      (∀ t : Ty, sizeOf t ≤ n → eqNN t t = true) ∧
      (∀ e : TyElem, sizeOf e ≤ n → eqNNElem e e = true) ∧
      (∀ o : Option Ty, sizeOf o ≤ n → eqNNOpt o o = true) ∧
      (∀ l : List Ty, sizeOf l ≤ n → eqNNList l l = true) ∧
      (∀ le : List TyElem, sizeOf le ≤ n → eqNNElems le le = true) := by
  intro n
  induction n using Nat.strong_induction_on with
  | _ n ih =>
    refine ⟨?_, ?_, ?_, ?_, ?_⟩
    · intro t ht
      match t with
      | .keyword k => simp [eqNN]
      | .lit l => simp [eqNN]
      | .array e =>
        have he := (ih (sizeOf e) (by simp at ht; omega)).1 e (le_refl _)
        simp [eqNN, he]
      | .tuple l =>
        have hl := (ih (sizeOf l) (by simp at ht; omega)).2.2.2.1 l (le_refl _)
        simp [eqNN, hl]
      | .union l =>
        have hl := (ih (sizeOf l) (by simp at ht; omega)).2.2.2.1 l (le_refl _)
        simp [eqNN, hl]
      | .inter l =>
        have hl := (ih (sizeOf l) (by simp at ht; omega)).2.2.2.1 l (le_refl _)
        simp [eqNN, hl]
      | .typeLit msx =>
        have hl := (ih (sizeOf msx) (by simp at ht; omega)).2.2.2.2 msx (le_refl _)
        simp [eqNN, hl]
      | .iface nm body =>
        have hl := (ih (sizeOf body) (by simp at ht; omega)).2.2.2.2 body (le_refl _)
        simp [eqNN, hl]
      | .fn tp p r =>
        have hr := (ih (sizeOf r) (by simp at ht; omega)).1 r (le_refl _)
        simp [eqNN, hr]
      | .ctor tp p r =>
        have hr := (ih (sizeOf r) (by simp at ht; omega)).1 r (le_refl _)
        simp [eqNN, hr]
      | .cls nm => simp [eqNN]
      | .enumT id => simp [eqNN]
      | .enumVariant a b => simp [eqNN]
      | .param nm c =>
        have hc := (ih (sizeOf c) (by simp at ht; omega)).2.2.1 c (le_refl _)
        simp [eqNN, hc]
      | .this => simp [eqNN]
      | .other s => simp [eqNN]
    · intro e he
      match e with
      | .property k ann =>
        have ha := (ih (sizeOf ann) (by simp at he; omega)).2.2.1 ann (le_refl _)
        simp [eqNNElem, ha]
      | .method k => simp [eqNNElem]
      | .callSig => simp [eqNNElem]
      | .constructSig => simp [eqNNElem]
    · intro o ho
      match o with
      | none => simp [eqNNOpt]
      | some t2 =>
        have ht2 := (ih (sizeOf t2) (by simp at ho; omega)).1 t2 (le_refl _)
        simp [eqNNOpt, ht2]
    · intro l hl
      match l with
      | [] => simp [eqNNList]
      | a :: as_ =>
        have h1 := (ih (sizeOf a) (by simp at hl; omega)).1 a (le_refl _)
        have h2 := (ih (sizeOf as_) (by simp at hl; omega)).2.2.2.1 as_ (le_refl _)
        simp [eqNNList, h1, h2]
    · intro le hle
      match le with
      | [] => simp [eqNNElems]
      | a :: as_ =>
        have h1 := (ih (sizeOf a) (by simp at hle; omega)).2.1 a (le_refl _)
        have h2 := (ih (sizeOf as_) (by simp at hle; omega)).2.2.2.2 as_ (le_refl _)
        simp [eqNNElems, h1, h2]

/-- `eq_ignore_name_and_span` is reflexive. -/
theorem eqNN_refl (t : Ty) : eqNN t t = true :=
  (eqNN_refl_bounded (sizeOf t)).1 t (le_refl _)

/-- The shared fall-through tail succeeds on identical types. -/
theorem assignFallback_refl (t : Ty) : assignFallback t t = .ok := by
  simp [assignFallback, eqNN_refl t]

/-- Whether a member list contains a method member. -/
def hasMethodMember (ms : List TyElem) : Bool :=
  ms.any fun m => match m with | .method _ => true | _ => false

/-- Whether the property keys of a member list are pairwise distinct. -/
def propKeysNodup : List TyElem → Bool
  | [] => true
  | .property k _ :: rest =>
    !(rest.any fun m => match m with | .property k2 _ => k2 == k | _ => false) &&
      propKeysNodup rest
  | _ :: rest => propKeysNodup rest

mutual
/-- The class of types on which assignability is provably reflexive:
keywords, literals, arrays/tuples of such types, non-generic functions with
such return types, generic functions, constructors, interfaces, classes,
enum variants, type parameters, raw types, and type literals whose members
are methodless, have pairwise distinct property keys, and carry such
property types.  `Union`, `Intersection`, `Enum` and `ThisType` are
excluded: reflexivity genuinely fails there. -/
def reflOk : Ty → Bool
  | .keyword _ => true
  | .lit _ => true
  | .array e => reflOk e
  | .tuple ts => ts.attach.all fun tp => reflOk tp.1
  | .union _ => false
  | .inter _ => false
  | .typeLit ms =>
    !(hasMethodMember ms) && propKeysNodup ms &&
      (ms.attach.all fun mp => reflOkElem mp.1)
  | .iface _ _ => true
  | .fn none _ ret => reflOk ret
  | .fn (some _) _ _ => true
  | .ctor _ _ _ => true
  | .cls _ => true
  | .enumT _ => false
  | .enumVariant _ _ => true
  | .param _ _ => true
  | .this => false
  | .other _ => true
termination_by t => sizeOf t
decreasing_by
all_goals simp_wf
all_goals first
  | omega
  | (have h1 := List.sizeOf_lt_of_mem tp.2
     omega)
  | (have h1 := List.sizeOf_lt_of_mem mp.2
     omega)

/-- Member admissibility for reflexivity: a property's annotated type (if
any) must itself be in the class. -/
def reflOkElem : TyElem → Bool
  | .property _ (some t) => reflOk t
  | _ => true
termination_by m => sizeOf m
end

/-- `seqAll` succeeds when every element succeeds. -/
theorem seqAll_ok (rs : List AResult) (h : ∀ r ∈ rs, r = .ok) : seqAll rs = .ok := by
  induction rs with
  | nil => rfl
  | cons r rest ih =>
    have := h r (List.mem_cons_self _ _)
    subst this
    exact ih fun x hx => h x (List.mem_cons_of_mem _ hx)

/-- A pair drawn from a list zipped with itself has equal components. -/
theorem mem_zip_self {a : Type} {l : List a} {p : a × a} (h : p ∈ l.zip l) :
    p.1 = p.2 := by
  induction l with
  | nil => simp [List.zip] at h
  | cons x xs ih =>
    rw [List.zip_cons_cons] at h
    rcases List.mem_cons.mp h with h1 | h2
    · subst h1; rfl
    · exact ih h2

/-- When every scanned member is satisfied, the member fold reports no
missing member. -/
theorem memberFold_done_nil (ps : List (TyElem × MemScan))
    (h : ∀ p ∈ ps, p.2 = MemScan.satisfied) : memberFold ps = .done [] := by
  induction ps with
  | nil => rfl
  | cons p rest ih =>
    obtain ⟨m, s⟩ := p
    have hs := h (m, s) (List.mem_cons_self _ _)
    simp at hs
    subst hs
    simpa [memberFold] using ih fun x hx => h x (List.mem_cons_of_mem _ hx)

/-- Under distinct property keys, `findPropAnn` finds a property member's
own annotation. -/
theorem findPropAnn_self {ms : List TyElem} {k : String} {ann : Option Ty}
    (hnd : propKeysNodup ms = true) (hm : (TyElem.property k ann) ∈ ms) :
    findPropAnn k ms = some ann := by
  induction ms with
  | nil => simp at hm
  | cons m rest ih =>
    match m with
    | .property k2 a2 =>
      simp only [propKeysNodup, Bool.and_eq_true, Bool.not_eq_true] at hnd
      obtain ⟨hno, hnd2⟩ := hnd
      rcases List.mem_cons.mp hm with h1 | h2
      · injection h1 with hk ha
        subst hk
        subst ha
        simp [findPropAnn]
      · rw [findPropAnn]
        by_cases hk : (k2 == k) = true
        · exfalso
          have hany : (rest.any fun m => match m with
              | .property k3 _ => k3 == k2 | _ => false) = true := by
            refine List.any_eq_true.mpr ⟨.property k ann, h2, ?_⟩
            simp only [beq_iff_eq] at hk
            simp [hk]
          rw [hany] at hno
          simp at hno
        · simp only [hk, Bool.false_eq_true, if_false]
          exact ih hnd2 h2
    | .method k2 =>
      simp only [propKeysNodup] at hnd
      rcases List.mem_cons.mp hm with h1 | h2
      · cases h1
      · rw [findPropAnn]
        · exact ih hnd h2
        all_goals simp
    | .callSig =>
      simp only [propKeysNodup] at hnd
      rcases List.mem_cons.mp hm with h1 | h2
      · cases h1
      · rw [findPropAnn]
        · exact ih hnd h2
        all_goals simp
    | .constructSig =>
      simp only [propKeysNodup] at hnd
      rcases List.mem_cons.mp hm with h1 | h2
      · cases h1
      · rw [findPropAnn]
        · exact ih hnd h2
        all_goals simp

/-- An `Interface` target against an `Interface` source dispatches to
`handleTypeLit` (assign.rs line 387). -/
theorem tryAssign_iface_iface (nm nm2 : String) (ms ms2 : List TyElem) :
    tryAssign (.iface nm ms) (.iface nm2 ms2) =
      handleTypeLit (.iface nm ms) (.iface nm2 ms2) ms := by
  rw [tryAssign] <;> simp [Ty.isKeyword]

/-- `handleTypeLit` falls through to the shared tail when the source is an
`Interface` (the macro only matches `TypeLit`, `Tuple`, `Array`, `Lit`). -/
theorem handleTypeLit_iface_rhs (tgt : Ty) (nm2 : String) (ms ms2 : List TyElem) :
    handleTypeLit tgt (.iface nm2 ms2) ms = assignFallback tgt (.iface nm2 ms2) := by
  rw [handleTypeLit] <;> simp

/-- C4 counterexample. `assign(Enum E, Enum E)` fails: the `Enum` target arm
accepts only `EnumVariant` sources and otherwise returns `AssignFailed`
(assign.rs lines 354-371), so reflexivity does not hold at `Enum`. -/
theorem enum_reflexivity_counterexample :
    tryAssign (.enumT "E") (.enumT "E") =
      .err (.assignFailed (.enumT "E") (.enumT "E") []) ∧
    tryAssign (.enumT "E") (.enumT "E") ≠ .ok := by
  constructor <;> simp [tryAssign, Ty.isKeyword]

/-- Reflexivity of assignability on the `reflOk` class, by strong induction
on size. -/
theorem assign_reflexive_bounded :
    ∀ n : Nat, ∀ t : Ty, sizeOf t ≤ n → reflOk t = true → tryAssign t t = .ok := by
  intro n
  induction n using Nat.strong_induction_on with
  | _ n ih =>
    intro t ht h
    match t with
    | .keyword k =>
      cases k <;> simp [tryAssign, Ty.isKeyword, assignFallback, eqNN]
    | .lit l => simp [tryAssign, Ty.isKeyword]
    | .array e =>
      have he : reflOk e = true := by simpa [reflOk] using h
      have hrec := ih (sizeOf e) (by simp at ht; omega) e (le_refl _) he
      simp [tryAssign, Ty.isKeyword, hrec]
    | .tuple ts =>
      have hall : ∀ x ∈ ts, reflOk x = true := by
        intro x hx
        have h2 : (ts.attach.all fun tp => reflOk tp.1) = true := by
          simpa [reflOk] using h
        have h3 := List.all_eq_true.mp h2 ⟨x, hx⟩ (List.mem_attach ts ⟨x, hx⟩)
        simpa using h3
      rw [tryAssign_tuple_tuple]
      apply tupleSeq_ok
      intro q hq
      obtain ⟨⟨a, b⟩, hp, rfl⟩ := List.mem_map.mp hq
      left
      have hab : a = b := mem_zip_self hp
      subst hab
      have ha : a ∈ ts := (List.of_mem_zip hp).1
      have hs : sizeOf a < n := by
        have h1 := List.sizeOf_lt_of_mem ha
        simp at ht
        omega
      exact ih (sizeOf a) hs a (le_refl _) (hall a ha)
    | .union l => simp [reflOk] at h
    | .inter l => simp [reflOk] at h
    | .enumT id => simp [reflOk] at h
    | .this => simp [reflOk] at h
    | .typeLit ms =>
      have hparts : (!(hasMethodMember ms) && propKeysNodup ms &&
          (ms.attach.all fun mp => reflOkElem mp.1)) = true := by
        simpa [reflOk] using h
      rw [Bool.and_eq_true, Bool.and_eq_true] at hparts
      obtain ⟨⟨hnm, hnd⟩, helems⟩ := hparts
      rw [tryAssign_typeLit_typeLit, handleTypeLit_typeLit]
      have hsat : ∀ m ∈ ms, scanMember ms m = MemScan.satisfied := by
        intro m hm
        match m with
        | .property k mAnn =>
          rw [scanMember_property, findPropAnn_self hnd hm]
          cases mAnn with
          | none => simp [tryAssign_any_tgt]
          | some tt =>
            have hOkE : reflOkElem (.property k (some tt)) = true := by
              have h4 := List.all_eq_true.mp helems ⟨_, hm⟩ (List.mem_attach _ _)
              simpa using h4
            have hOk : reflOk tt = true := by simpa [reflOkElem] using hOkE
            have hs : sizeOf tt < n := by
              have h1 := List.sizeOf_lt_of_mem hm
              simp at ht h1
              omega
            have h5 := ih (sizeOf tt) hs tt (le_refl _) hOk
            simp [h5]
        | .method k =>
          exfalso
          have h4 : hasMethodMember ms = true :=
            List.any_eq_true.mpr ⟨.method k, hm, rfl⟩
          rw [h4] at hnm
          cases hnm
        | .callSig =>
          rw [scanMember_callSig]
          have h4 : (ms.any fun rm => eqNNElem rm .callSig) = true :=
            List.any_eq_true.mpr ⟨.callSig, hm, by simp [eqNNElem]⟩
          simp [h4]
        | .constructSig =>
          rw [scanMember_constructSig]
          have h4 : (ms.any fun rm => eqNNElem rm .constructSig) = true :=
            List.any_eq_true.mpr ⟨.constructSig, hm, by simp [eqNNElem]⟩
          simp [h4]
      have hfold := memberFold_done_nil (ms.map fun m => (m, scanMember ms m)) (by
        intro p hp
        obtain ⟨m, hm, rfl⟩ := List.mem_map.mp hp
        exact hsat m hm)
      rw [hfold]
    | .iface nm body =>
      rw [tryAssign_iface_iface, handleTypeLit_iface_rhs]
      exact assignFallback_refl _
    | .fn tp p r =>
      cases tp with
      | none =>
        have hr : reflOk r = true := by simpa [reflOk] using h
        have hrec := ih (sizeOf r) (by simp at ht; omega) r (le_refl _) hr
        simp [tryAssign, Ty.isKeyword, hrec]
      | some tpn =>
        simp [tryAssign, Ty.isKeyword, assignFallback_refl]
    | .ctor tp p r =>
      simp [tryAssign, Ty.isKeyword, assignFallback_refl]
    | .cls nm =>
      simp [tryAssign, Ty.isKeyword, assignFallback_refl]
    | .enumVariant a b =>
      simp [tryAssign, Ty.isKeyword]
    | .param nm c =>
      cases c <;> simp [tryAssign, Ty.isKeyword]
    | .other s =>
      cases s <;> simp [tryAssign, Ty.isKeyword, assignFallback_refl]

/-- C4 amended. Reflexivity of assignability holds on the `reflOk` class:
every type built from keywords, literals, arrays, tuples, non-generic
functions (with such return types), generic functions, constructors,
interfaces, classes, enum variants, type parameters, raw types, and type
literals without method members, with distinct property keys and such
property types.  `ThisType`, `Enum`, `Union` and `Intersection` are
excluded: `ThisType` by the claim itself, the others because reflexivity
fails on them (see the counterexample). -/
theorem assign_reflexive (t : Ty) (h : reflOk t = true) : tryAssign t t = .ok :=
  assign_reflexive_bounded (sizeOf t) t (le_refl _) h

/-- C4 amended, witness at a composite type. -/
theorem assign_reflexive_witness :
    reflOk (.tuple [.keyword .strK, .array (.lit (.num 1)),
        .typeLit [.property "a" (some (.keyword .numK)), .callSig]]) = true ∧
    tryAssign
        (.tuple [.keyword .strK, .array (.lit (.num 1)),
          .typeLit [.property "a" (some (.keyword .numK)), .callSig]])
        (.tuple [.keyword .strK, .array (.lit (.num 1)),
          .typeLit [.property "a" (some (.keyword .numK)), .callSig]]) = .ok :=
  ⟨by simp [reflOk, reflOkElem, hasMethodMember, propKeysNodup],
   assign_reflexive _
     (by simp [reflOk, reflOkElem, hasMethodMember, propKeysNodup])⟩
